import Mathlib

/-!
Verification of the frame-reassembly core of the screen-streamer repository.

The development shallowly embeds the three decoding paths of the source:

* the exact reader `readExactly` and the reliable-stream frame decoder
  `receiveFrame` of `frame_receiver_worker.ts` (the `ScreenCapturer`
  variant in the class file has the same reading logic modulo sleep
  delays, which have no observable effect on the returned values);
* the datagram frame decoder (`extractChunksFromPacket`, `receiveFrame`)
  of the UDP receiver variant;
* the per-frame statistics accumulation of `ScreenCapturer`.

Bytes are modelled as natural numbers, buffers as lists, the TCP byte
source as a list of the byte groups successive `conn.read` calls return,
and a UDP socket as a list of (arrival time in ms, datagram bytes)
events.  Machine `u32` values are read and written little-endian exactly
as `DataView.getUint32(_, true)` does.
-/

namespace ScreenStreamer

/-- Little-endian encoding of a `u32` value into four bytes, as written by
the sender side of the wire protocol. -/
def u32encode (n : Nat) : List Nat :=
  [n % 256, n / 256 % 256, n / 65536 % 256, n / 16777216 % 256]

/-- Little-endian decoding of a `u32` from the first four bytes of a list,
the embedding of `new DataView(buf).getUint32(off, true)`. -/
def u32decode (bs : List Nat) : Nat :=
  bs.getD 0 0 + 256 * bs.getD 1 0 + 65536 * bs.getD 2 0 + 16777216 * bs.getD 3 0

/-! ### The byte-stream connection and the exact reader

A stream source is the list of byte groups that successive `conn.read`
calls deliver.  `conn.read` returns `null` at end of stream (modelled by
an exhausted source) and the code also treats a zero-byte read as a
closed connection, modelled by an empty group at the head. -/

/-- One `conn.read(buffer.subarray(totalRead))` call: delivers at most
`want` bytes from the head group of the source, or `none` when the
connection reports no bytes. -/
def connRead (want : Nat) (src : List (List Nat)) :
    Option (List Nat × List (List Nat)) :=
  match src with
  | [] => none
  | c :: rest =>
    if c = [] then none
    else some (c.take want, if c.length ≤ want then rest else c.drop want :: rest)

/-- The accumulation loop of `readExactly`.  Every successful `connRead`
delivers at least one byte, so `size` iterations always suffice; the
`fuel` argument makes that bound explicit and the recursion structural. -/
def readGo (size : Nat) : Nat → List Nat → List (List Nat) →
    Option (List Nat × List (List Nat))
  | 0, acc, src => if acc.length < size then none else some (acc, src)
  | fuel + 1, acc, src =>
    if acc.length < size then
      match connRead (size - acc.length) src with
      | none => none
      | some (taken, src1) => readGo size fuel (acc ++ taken) src1
    else some (acc, src)

/-- Embedding of `readExactly(size)`: repeatedly read into the unfilled
suffix until `size` bytes are accumulated, returning `none` the moment a
read reports no bytes. -/
def readExactly (size : Nat) (src : List (List Nat)) :
    Option (List Nat × List (List Nat)) :=
  readGo size size [] src

/-- The number of bytes the connection can still deliver before it reports
end of stream: the total length of the maximal prefix of nonempty read
groups. -/
def avail (src : List (List Nat)) : Nat :=
  ((src.takeWhile fun c => !c.isEmpty).flatten).length

/-! ### The reliable-stream frame decoder

Embedding of `receiveFrame` from the worker: read the 8-byte metadata,
allocate a `totalSize` buffer, then for each of `numChunks` iterations
read a 4-byte size prefix and that many chunk bytes, copying them at the
running write offset.  `Uint8Array.set` throws a `RangeError` when the
copy would overrun the target; the `try`/`catch` around the body maps
that to a `null` result.  The `Except` layer records whether the body
returned normally or threw. -/

/-- Embedding of `frameData.set(data, off)` on an in-bounds write: replace
`data.length` bytes of `buf` starting at `off`. -/
def writeAt (buf : List Nat) (off : Nat) (data : List Nat) : List Nat :=
  buf.take off ++ data ++ buf.drop (off + data.length)

/-- The chunk-reading loop of the stream `receiveFrame`, iterating the
remaining chunk count: reads the size prefix and chunk bytes, performs
the `set` (throwing `RangeError`, i.e. `.error`, on overrun exactly as
`Uint8Array.set` does) and advances the offset by the declared size.
Returns `.ok none` when a read hits end of stream. -/
def recvChunks : List (List Nat) → List Nat → Nat → Nat →
    Except Unit (Option (List Nat × Nat × List (List Nat)))
  | src, frame, tr, 0 => .ok (some (frame, tr, src))
  | src, frame, tr, i + 1 =>
    match readExactly 4 src with
    | none => .ok none
    | some (sizeB, src1) =>
      match readExactly (u32decode sizeB) src1 with
      | none => .ok none
      | some (chunkData, src2) =>
        if tr + chunkData.length ≤ frame.length then
          recvChunks src2 (writeAt frame tr chunkData)
            (tr + u32decode sizeB) i
        else .error ()

/-- The body of the stream `receiveFrame` (the `try` block): metadata
parse, buffer allocation and the chunk loop. -/
def receiveFrameBody (src : List (List Nat)) :
    Except Unit (Option (List Nat)) :=
  match readExactly 8 src with
  | none => .ok none
  | some (meta, src1) =>
    match recvChunks src1 (List.replicate (u32decode (meta.take 4)) 0) 0
        (u32decode (meta.drop 4)) with
    | .error e => .error e
    | .ok none => .ok none
    | .ok (some (frame, _, _)) => .ok (some frame)

/-- Embedding of the stream-transport `receiveFrame`: the `catch` clause
maps a thrown `RangeError` to `null`. -/
def receiveFrameStream (src : List (List Nat)) : Option (List Nat) :=
  match receiveFrameBody src with
  | .error _ => none
  | .ok r => r

/-- The wire encoding of one stream chunk: 4-byte little-endian size
prefix followed by the chunk bytes. -/
def encodeChunk (c : List Nat) : List Nat := u32encode c.length ++ c

/-- The wire encoding of a whole stream frame: 8-byte metadata
(`totalSize`, `chunkCount`) followed by the encoded chunks. -/
def encodeStream (totalSize : Nat) (chunks : List (List Nat)) : List Nat :=
  u32encode totalSize ++ u32encode chunks.length ++
    (chunks.map encodeChunk).flatten

/-! ### The datagram frame decoder

Embedding of the UDP receiver variant: a metadata datagram declares
`totalSize` and `numChunks`; data datagrams carry packed chunks, each a
4-byte little-endian index followed by up to `CHUNK_SIZE` payload bytes.
The socket is modelled as the list of (arrival time in ms, datagram
bytes) events it will deliver; the elapsed-time check of the receive loop
reads the clock between datagrams, modelled by the arrival time of the
most recently received datagram. -/

/-- The fixed maximum chunk payload size of the datagram protocol. -/
def CHUNK_SIZE : Nat := 60000

/-- The reassembly state of one in-flight datagram frame: the destination
buffer, the set of received chunk indices and the running byte count. -/
structure DgState where
  frame : List Nat
  received : Finset Nat
  totalReceived : Nat
deriving DecidableEq

/-- The scanning loop of `extractChunksFromPacket`.  Each iteration
consumes at least five bytes of the remaining packet, so `rem.length`
iterations always suffice; the `fuel` argument makes that bound explicit
and the recursion structural. -/
def extractGo : Nat → List Nat → List (Nat × List Nat)
  | 0, _ => []
  | fuel + 1, rem =>
    if rem.length < 4 then []
    else
      if rem.drop 4 = [] then []
      else (u32decode (rem.take 4), (rem.drop 4).take CHUNK_SIZE) ::
        extractGo fuel ((rem.drop 4).drop CHUNK_SIZE)

/-- Embedding of `extractChunksFromPacket`: split a datagram into its
packed `(index, data)` chunks, stopping when fewer than four bytes (no
room for an index) or no payload bytes remain. -/
def extractChunksFromPacket (pkt : List Nat) : List (Nat × List Nat) :=
  extractGo pkt.length pkt

/-- Processing of one extracted `(index, data)` chunk by the datagram
receive loop: an index at or beyond `numChunks` is ignored, a duplicate
index is ignored, a chunk longer than
`min(CHUNK_SIZE, totalSize - index*CHUNK_SIZE)` is skipped with a
warning; otherwise the bytes are copied at offset `index * CHUNK_SIZE`,
the index marked received and the byte count advanced.  The size
comparison happens on JavaScript numbers, which can go negative, hence
over `Int`. -/
def processChunk (numChunks totalSize : Nat) (s : DgState)
    (c : Nat × List Nat) : DgState :=
  if numChunks ≤ c.1 then s
  else if c.1 ∈ s.received then s
  else if (c.2.length : Int) >
      min (CHUNK_SIZE : Int) ((totalSize : Int) - (c.1 * CHUNK_SIZE : Nat)) then s
  else
    { frame := writeAt s.frame (c.1 * CHUNK_SIZE) c.2
      received := insert c.1 s.received
      totalReceived := s.totalReceived + c.2.length }

/-- Folding `processChunk` over a list of extracted chunks, the inner
`for` loop of the datagram decoder. -/
def processChunks (numChunks totalSize : Nat) (s : DgState)
    (l : List (Nat × List Nat)) : DgState :=
  l.foldl (processChunk numChunks totalSize) s

/-- Processing of one received datagram: extract its packed chunks and
process each in order. -/
def processPacket (numChunks totalSize : Nat) (s : DgState)
    (pkt : List Nat) : DgState :=
  processChunks numChunks totalSize s (extractChunksFromPacket pkt)

/-- The chunk-receiving loop of the datagram `receiveFrame`: while
coverage is incomplete, check the 1000 ms timeout against the last
observed clock value, then receive the next datagram (ignoring those
shorter than a chunk header) and process it.  Two branches of the source
never return on a live socket: the timeout branch runs the drain
`while (await listener.receive()) {}`, which cannot exit because
`receive` resolves to an always-truthy tuple, and a receive with no
datagram ever arriving blocks forever.  Both are collapsed here to a
no-frame result with the trace consumed — a safety-only reading (no
frame is ever produced on these paths); no theorem below asserts that
the real call returns there. -/
def dgAssemble (numChunks totalSize startTime : Nat) :
    Nat → DgState → List (Nat × List Nat) →
    Option DgState × List (Nat × List Nat)
  | now, s, events =>
    if s.received.card < numChunks then
      if 1000 < now - startTime then (none, [])
      else
        match events with
        | [] => (none, [])
        | (t, pkt) :: rest =>
          if pkt.length < 4 then
            dgAssemble numChunks totalSize startTime t s rest
          else
            dgAssemble numChunks totalSize startTime t
              (processPacket numChunks totalSize s pkt) rest
    else (some s, events)

/-- Embedding of the datagram-transport `receiveFrame`: receive a
metadata datagram, reject it when shorter than 8 bytes or beyond the
sanity ceilings, then run the assembly loop from a zero-filled buffer
and finally require the copied byte count to equal `totalSize`.  The
result pairs the decoded frame (if any) with the events not yet
consumed.  The sanity-ceiling branch runs the same never-terminating
drain as the timeout branch of `dgAssemble`; it is collapsed to a
no-frame result with the trace consumed, which is sound for the safety
content (no frame is ever produced for such metadata) but stands for a
call that in the source blocks instead of returning. -/
def dgReceiveFrame (events : List (Nat × List Nat)) :
    Option (List Nat) × List (Nat × List Nat) :=
  match events with
  | [] => (none, [])
  | (t0, meta) :: rest =>
    if meta.length < 8 then (none, rest)
    else
      if 1000 < u32decode (meta.drop 4) ∨
          1920 * 1080 * 4 < u32decode (meta.take 4) then (none, [])
      else
        match dgAssemble (u32decode (meta.drop 4)) (u32decode (meta.take 4))
            t0 t0 ⟨List.replicate (u32decode (meta.take 4)) 0, ∅, 0⟩ rest with
        | (none, rem) => (none, rem)
        | (some s, rem) =>
          if s.totalReceived ≠ u32decode (meta.take 4) then (none, rem)
          else (some s.frame, rem)

/-- The cumulative effect of the datagram receive loop on the assembly
state over a list of received datagrams (a datagram shorter than a chunk
header extracts no chunks, so processing it is a no-op either way). -/
def processDatagrams (numChunks totalSize : Nat) (s : DgState)
    (pkts : List (List Nat)) : DgState :=
  pkts.foldl (processPacket numChunks totalSize) s

/-! ### Frame statistics of `ScreenCapturer`

Embedding of the `frame` message handler: each published frame adds its
`receiveTime` to `totalReceiveTime` and increments `frameCount`; when
`frameCount % 30 === 0` the stats callback fires with the average
`totalReceiveTime / frameCount` and both accumulators are set back to
zero.  Durations, `float64` in the source, are modelled as rationals;
the claim under test concerns the accumulate/emit/reset structure, not
floating-point rounding.  `reports` records the `avgLatency` values
passed to the callback, in order. -/

structure StatsState where
  frameCount : Nat
  totalReceiveTime : ℚ
  reports : List ℚ
deriving DecidableEq

/-- Embedding of the `type === 'frame'` branch of the worker message
handler in `ScreenCapturer.initializeCapture`. -/
def publishFrame (s : StatsState) (receiveTime : ℚ) : StatsState :=
  if (s.frameCount + 1) % 30 = 0 then
    ⟨0, 0, s.reports ++
      [(s.totalReceiveTime + receiveTime) / ((s.frameCount + 1 : Nat) : ℚ)]⟩
  else ⟨s.frameCount + 1, s.totalReceiveTime + receiveTime, s.reports⟩

/-- Folding `publishFrame` over a sequence of frame receive durations. -/
def publishAll (s : StatsState) (ds : List ℚ) : StatsState :=
  ds.foldl publishFrame s

/-- The initial statistics state of a fresh `ScreenCapturer`. -/
def statsInit : StatsState := ⟨0, 0, []⟩

/-- The spec-side description of the emitted statistics, for comparison
with the code model: the sequence of averages of each complete 30-frame
window, one report per window. -/
def specWindowAverages (ds : List ℚ) : List ℚ :=
  if h : 30 ≤ ds.length then
    ((ds.take 30).sum / 30) :: specWindowAverages (ds.drop 30)
  else []
termination_by ds.length
decreasing_by simp only [List.length_drop]; omega

/-! ### Concrete inputs used by the claim-level results -/

/-- A stream input whose metadata declares `totalSize = 4` but whose single
declared chunk carries only 2 bytes: the declared chunk sizes fall short
of the metadata total. -/
def streamShortfallSrc : List (List Nat) := [encodeStream 4 [[1, 2]]]

/-- A stream input whose metadata declares 1001 chunks (beyond the 1000
sanity ceiling), each of zero length, with `totalSize = 0`. -/
def streamManyChunksSrc : List (List Nat) :=
  [encodeStream 0 (List.replicate 1001 [])]

/-- A datagram trace whose single chunk arrives 5000 ms after the metadata
yet completes coverage. -/
def dgLateCoverTrace : List (Nat × List Nat) :=
  [(0, u32encode 1 ++ u32encode 1), (5000, u32encode 0 ++ [7])]

theorem u32decode_encode (n : Nat) (h : n < 4294967296) :
    u32decode (u32encode n) = n := by
  simp only [u32encode, u32decode, List.getD_cons_zero, List.getD_cons_succ]
  omega

theorem u32encode_length (n : Nat) : (u32encode n).length = 4 := rfl

theorem avail_cons {c : List Nat} (rest : List (List Nat)) (hc : c ≠ []) :
    avail (c :: rest) = c.length + avail rest := by
  have hce : c.isEmpty = false := by
    cases c with
    | nil => exact absurd rfl hc
    | cons a l => rfl
  simp [avail, List.takeWhile_cons, hce]

theorem connRead_taken_len {want : Nat} {src : List (List Nat)}
    {taken : List Nat} {src1 : List (List Nat)}
    (h : connRead want src = some (taken, src1)) (hw : 0 < want) :
    0 < taken.length ∧ taken.length ≤ want := by
  match src with
  | [] => simp [connRead] at h
  | c :: rest =>
    by_cases hc : c = []
    · simp [connRead, hc] at h
    · simp only [connRead, if_neg hc, Option.some.injEq, Prod.mk.injEq] at h
      obtain ⟨h1, _⟩ := h
      constructor
      · subst h1
        simp only [List.length_take]
        have : 0 < c.length := List.length_pos.mpr hc
        omega
      · subst h1
        simp only [List.length_take]
        omega

theorem readGo_some_length {size : Nat} : ∀ {fuel : Nat} {acc : List Nat}
    {src : List (List Nat)} {res : List Nat} {src1 : List (List Nat)},
    readGo size fuel acc src = some (res, src1) → acc.length ≤ size →
    res.length = size := by
  intro fuel
  induction fuel with
  | zero =>
    intro acc src res src1 h hle
    by_cases hlt : acc.length < size
    · simp [readGo, hlt] at h
    · simp only [readGo, if_neg hlt, Option.some.injEq, Prod.mk.injEq] at h
      obtain ⟨h1, _⟩ := h
      subst h1
      omega
  | succ n ih =>
    intro acc src res src1 h hle
    by_cases hlt : acc.length < size
    · simp only [readGo, if_pos hlt] at h
      match hcr : connRead (size - acc.length) src with
      | none => rw [hcr] at h; simp at h
      | some (taken, src2) =>
        rw [hcr] at h
        have htl := connRead_taken_len hcr (by omega)
        have : (acc ++ taken).length ≤ size := by
          simp only [List.length_append]; omega
        exact ih h this
    · simp only [readGo, if_neg hlt, Option.some.injEq, Prod.mk.injEq] at h
      obtain ⟨h1, _⟩ := h
      subst h1
      omega

theorem readGo_none_iff {size : Nat} : ∀ {fuel : Nat} {acc : List Nat}
    {src : List (List Nat)}, size - acc.length ≤ fuel →
    (readGo size fuel acc src = none ↔ acc.length + avail src < size) := by
  intro fuel
  induction fuel with
  | zero =>
    intro acc src hf
    have : ¬ acc.length < size := by omega
    simp [readGo, this]
    omega
  | succ n ih =>
    intro acc src hf
    by_cases hlt : acc.length < size
    · simp only [readGo, if_pos hlt]
      match src with
      | [] =>
        simp [connRead, avail]
        omega
      | c :: rest =>
        by_cases hc : c = []
        · subst hc
          simp [connRead, avail, List.takeWhile]
          omega
        · have hcpos : 0 < c.length := List.length_pos.mpr hc
          simp only [connRead, if_neg hc]
          have havail : avail (c :: rest) = c.length + avail rest :=
            avail_cons rest hc
          by_cases hlen : c.length ≤ size - acc.length
          · simp only [if_pos hlen]
            have htake : c.take (size - acc.length) = c :=
              List.take_of_length_le hlen
            rw [htake]
            have hrec := @ih (acc ++ c) rest
              (by simp only [List.length_append]; omega)
            rw [hrec, havail]
            simp only [List.length_append]
            omega
          · simp only [if_neg hlen]
            push_neg at hlen
            have hfull : (acc ++ c.take (size - acc.length)).length = size := by
              simp only [List.length_append, List.length_take]
              omega
            have hnot : ¬ (acc ++ c.take (size - acc.length)).length < size := by
              omega
            have hrec := @ih (acc ++ c.take (size - acc.length))
              (c.drop (size - acc.length) :: rest) (by omega)
            rw [hrec]
            have hdropne : c.drop (size - acc.length) ≠ [] := by
              intro hnil
              have := List.length_drop (size - acc.length) c ▸
                congrArg List.length hnil
              simp only [List.length_drop, List.length_nil] at this
              omega
            have : avail (c.drop (size - acc.length) :: rest)
                = (c.length - (size - acc.length)) + avail rest := by
              rw [avail_cons rest hdropne, List.length_drop]
            rw [this, havail, hfull]
            omega
    · simp only [readGo, if_neg hlt]
      constructor
      · intro h
        exact absurd h (by simp)
      · intro h
        omega

theorem readExactly_none_iff (size : Nat) (src : List (List Nat)) :
    readExactly size src = none ↔ avail src < size := by
  have := @readGo_none_iff size size [] src (by simp)
  simpa [readExactly] using this

theorem readGo_done {size fuel : Nat} {acc : List Nat} {src : List (List Nat)}
    (h : ¬ acc.length < size) :
    readGo size fuel acc src = some (acc, src) := by
  cases fuel <;> simp [readGo, h]

theorem readGo_flat {size : Nat} : ∀ {fuel : Nat} {acc : List Nat}
    {src : List (List Nat)},
    (∀ c ∈ src, c ≠ []) → acc.length < size → size - acc.length ≤ fuel →
    size - acc.length ≤ src.flatten.length →
    ∃ src1, readGo size fuel acc src
        = some (acc ++ src.flatten.take (size - acc.length), src1)
      ∧ src1.flatten = src.flatten.drop (size - acc.length)
      ∧ ∀ c ∈ src1, c ≠ [] := by
  intro fuel
  induction fuel with
  | zero =>
    intro acc src hne hlt hf hav
    omega
  | succ n ih =>
    intro acc src hne hlt hf hav
    match src with
    | [] =>
      simp at hav
      omega
    | c :: rest =>
      have hc : c ≠ [] := hne c (by simp)
      have hcpos : 0 < c.length := List.length_pos.mpr hc
      have hflat : (c :: rest).flatten = c ++ rest.flatten := by simp
      simp only [readGo, if_pos hlt, connRead, if_neg hc]
      by_cases hcl : c.length ≤ size - acc.length
      · rw [List.take_of_length_le hcl, if_pos hcl]
        by_cases hdone : (acc ++ c).length < size
        · have hne1 : ∀ d ∈ rest, d ≠ [] := fun d hd => hne d (by simp [hd])
          have hlen1 : size - (acc ++ c).length ≤ n := by
            simp only [List.length_append]
            omega
          have hav1 : size - (acc ++ c).length ≤ rest.flatten.length := by
            have h1 : (c :: rest).flatten.length
                = c.length + rest.flatten.length := by simp
            have h2 : (acc ++ c).length = acc.length + c.length := by simp
            omega
          obtain ⟨src1, heq, hfl, hne2⟩ := ih hne1 hdone hlen1 hav1
          have harith : size - (acc ++ c).length = size - acc.length - c.length := by
            simp only [List.length_append]
            omega
          refine ⟨src1, ?_, ?_, hne2⟩
          · rw [heq, harith, hflat, List.take_append_eq_append_take,
              List.take_of_length_le hcl, List.append_assoc]
          · rw [hfl, harith, hflat, List.drop_append_eq_append_drop,
              List.drop_eq_nil_of_le hcl, List.nil_append]
        · rw [readGo_done hdone]
          have hceq : c.length = size - acc.length := by
            simp only [List.length_append] at hdone
            omega
          refine ⟨rest, ?_, ?_, fun d hd => hne d (by simp [hd])⟩
          · rw [hflat, List.take_append_eq_append_take,
              List.take_of_length_le hcl, hceq]
            simp
          · rw [hflat, List.drop_append_eq_append_drop,
              List.drop_eq_nil_of_le hcl, hceq]
            simp
      · rw [if_neg hcl]
        push_neg at hcl
        have hdone : ¬ (acc ++ c.take (size - acc.length)).length < size := by
          simp only [List.length_append, List.length_take]
          omega
        rw [readGo_done hdone]
        have hdropne : c.drop (size - acc.length) ≠ [] := by
          intro hnil
          have := congrArg List.length hnil
          simp only [List.length_drop, List.length_nil] at this
          omega
        refine ⟨c.drop (size - acc.length) :: rest, ?_, ?_, ?_⟩
        · rw [hflat, List.take_append_eq_append_take]
          have : size - acc.length - c.length = 0 := by omega
          rw [this]
          simp
        · rw [hflat, List.drop_append_eq_append_drop]
          have : size - acc.length - c.length = 0 := by omega
          rw [this]
          simp
        · intro d hd
          rcases List.mem_cons.mp hd with h1 | h1
          · rw [h1]; exact hdropne
          · exact hne d (by simp [h1])

theorem readExactly_flat {size : Nat} {src : List (List Nat)}
    (hne : ∀ c ∈ src, c ≠ []) (hav : size ≤ src.flatten.length) :
    ∃ src1, readExactly size src = some (src.flatten.take size, src1)
      ∧ src1.flatten = src.flatten.drop size
      ∧ ∀ c ∈ src1, c ≠ [] := by
  by_cases hz : size = 0
  · subst hz
    refine ⟨src, ?_, by simp, hne⟩
    simp [readExactly, readGo]
  · have hlt : ([] : List Nat).length < size := by
      simp
      omega
    obtain ⟨src1, heq, hfl, hne1⟩ := @readGo_flat size size [] src
      hne hlt (by simp) (by simpa using hav)
    exact ⟨src1, by simpa [readExactly] using heq, by simpa using hfl, hne1⟩

theorem writeAt_length {buf data : List Nat} {off : Nat}
    (h : off + data.length ≤ buf.length) :
    (writeAt buf off data).length = buf.length := by
  simp only [writeAt, List.length_append, List.length_take, List.length_drop]
  omega

theorem take_len_append (l₁ l₂ : List Nat) {n : Nat} (h : l₁.length = n) :
    (l₁ ++ l₂).take n = l₁ := by
  subst h
  rw [List.take_append_eq_append_take]
  simp

theorem drop_len_append (l₁ l₂ : List Nat) {n : Nat} (h : l₁.length = n) :
    (l₁ ++ l₂).drop n = l₂ := by
  subst h
  rw [List.drop_append_eq_append_drop]
  simp

theorem recvChunks_complete :
    ∀ (chunks : List (List Nat)) (src : List (List Nat)) (done : List Nat),
    (∀ c ∈ chunks, c.length < 4294967296) →
    (∀ c ∈ src, c ≠ []) →
    src.flatten = (chunks.map encodeChunk).flatten →
    ∃ src1,
      recvChunks src (done ++ List.replicate ((chunks.map List.length).sum) 0)
          done.length chunks.length
        = .ok (some (done ++ chunks.flatten,
            done.length + (chunks.map List.length).sum, src1)) := by
  intro chunks
  induction chunks with
  | nil =>
    intro src done _ _ _
    exact ⟨src, by simp [recvChunks]⟩
  | cons c cs ih =>
    intro src done hsz hne hsrc
    have hszc : c.length < 4294967296 := hsz c (by simp)
    have hflat : src.flatten
        = u32encode c.length ++ (c ++ (cs.map encodeChunk).flatten) := by
      simpa [encodeChunk, List.append_assoc] using hsrc
    have hav4 : 4 ≤ src.flatten.length := by
      rw [hflat]
      simp [u32encode]
    obtain ⟨src1, h4, hfl1, hne1⟩ := readExactly_flat hne hav4
    have htake4 : src.flatten.take 4 = u32encode c.length := by
      rw [hflat]
      exact take_len_append _ _ (u32encode_length _)
    have hdrop4 : src1.flatten = c ++ (cs.map encodeChunk).flatten := by
      rw [hfl1, hflat]
      exact drop_len_append _ _ (u32encode_length _)
    have havc : c.length ≤ src1.flatten.length := by
      rw [hdrop4]
      simp
    obtain ⟨src2, hrc, hfl2, hne2⟩ := readExactly_flat hne1 havc
    have htakec : src1.flatten.take c.length = c := by
      rw [hdrop4]
      exact take_len_append _ _ rfl
    have hdropc : src2.flatten = (cs.map encodeChunk).flatten := by
      rw [hfl2, hdrop4]
      exact drop_len_append _ _ rfl
    rw [htake4] at h4
    rw [htakec] at hrc
    have hsum : ((c :: cs).map List.length).sum
        = c.length + (cs.map List.length).sum := by simp
    have hguard : done.length + c.length
        ≤ (done ++ List.replicate (((c :: cs).map List.length)).sum 0).length := by
      rw [hsum]
      simp
    have hwrite :
        writeAt (done ++ List.replicate (((c :: cs).map List.length)).sum 0)
            done.length c
          = (done ++ c) ++ List.replicate ((cs.map List.length).sum) 0 := by
      rw [hsum, writeAt, List.replicate_add]
      rw [take_len_append _ _ rfl]
      rw [← List.append_assoc done]
      rw [drop_len_append _ _ (by simp)]
    obtain ⟨src3, hrec⟩ := ih src2 (done ++ c) (fun d hd => hsz d (by simp [hd]))
      hne2 hdropc
    refine ⟨src3, ?_⟩
    simp only [List.length_cons, recvChunks, h4, u32decode_encode _ hszc, hrc,
      if_pos hguard, hwrite]
    rw [show (done ++ c).length = done.length + c.length by simp] at hrec
    rw [hrec]
    simp [hsum, List.append_assoc]
    omega

theorem receiveFrameStream_complete (totalSize : Nat)
    (chunks : List (List Nat)) (src : List (List Nat))
    (hts : totalSize < 4294967296) (hcc : chunks.length < 4294967296)
    (hsz : ∀ c ∈ chunks, c.length < 4294967296)
    (hsum : (chunks.map List.length).sum = totalSize)
    (hsrc : src.flatten = encodeStream totalSize chunks)
    (hne : ∀ c ∈ src, c ≠ []) :
    receiveFrameStream src = some chunks.flatten := by
  have hflat : src.flatten
      = (u32encode totalSize ++ u32encode chunks.length) ++
        (chunks.map encodeChunk).flatten := by
    simpa [encodeStream, List.append_assoc] using hsrc
  have hlen8 : (u32encode totalSize ++ u32encode chunks.length).length = 8 := by
    simp [u32encode]
  have hav8 : 8 ≤ src.flatten.length := by
    rw [hflat]
    simp only [List.length_append, hlen8]
    omega
  obtain ⟨src1, h8, hfl1, hne1⟩ := readExactly_flat hne hav8
  have htake8 : src.flatten.take 8
      = u32encode totalSize ++ u32encode chunks.length := by
    rw [hflat]
    exact take_len_append _ _ hlen8
  have hdrop8 : src1.flatten = (chunks.map encodeChunk).flatten := by
    rw [hfl1, hflat]
    exact drop_len_append _ _ hlen8
  rw [htake8] at h8
  have hmeta1 : (u32encode totalSize ++ u32encode chunks.length).take 4
      = u32encode totalSize := take_len_append _ _ (u32encode_length _)
  have hmeta2 : (u32encode totalSize ++ u32encode chunks.length).drop 4
      = u32encode chunks.length := drop_len_append _ _ (u32encode_length _)
  obtain ⟨src2, hrec⟩ := recvChunks_complete chunks src1 [] hsz hne1 hdrop8
  rw [hsum] at hrec
  simp only [List.nil_append, List.length_nil] at hrec
  simp only [receiveFrameStream, receiveFrameBody, h8, hmeta1, hmeta2,
    u32decode_encode _ hts, u32decode_encode _ hcc, hrec]

theorem recvChunks_overflow :
    ∀ (chunks : List (List Nat)) (src : List (List Nat))
      (frame : List Nat) (tr : Nat),
    (∀ c ∈ chunks, c.length < 4294967296) →
    (∀ c ∈ src, c ≠ []) →
    src.flatten = (chunks.map encodeChunk).flatten →
    tr ≤ frame.length → frame.length < tr + (chunks.map List.length).sum →
    recvChunks src frame tr chunks.length = .error () := by
  intro chunks
  induction chunks with
  | nil =>
    intro src frame tr _ _ _ hle hlt
    simp at hlt
    omega
  | cons c cs ih =>
    intro src frame tr hsz hne hsrc hle hlt
    have hszc : c.length < 4294967296 := hsz c (by simp)
    have hflat : src.flatten
        = u32encode c.length ++ (c ++ (cs.map encodeChunk).flatten) := by
      simpa [encodeChunk, List.append_assoc] using hsrc
    have hav4 : 4 ≤ src.flatten.length := by
      rw [hflat]
      simp [u32encode]
    obtain ⟨src1, h4, hfl1, hne1⟩ := readExactly_flat hne hav4
    have htake4 : src.flatten.take 4 = u32encode c.length := by
      rw [hflat]
      exact take_len_append _ _ (u32encode_length _)
    have hdrop4 : src1.flatten = c ++ (cs.map encodeChunk).flatten := by
      rw [hfl1, hflat]
      exact drop_len_append _ _ (u32encode_length _)
    have havc : c.length ≤ src1.flatten.length := by
      rw [hdrop4]
      simp
    obtain ⟨src2, hrc, hfl2, hne2⟩ := readExactly_flat hne1 havc
    have htakec : src1.flatten.take c.length = c := by
      rw [hdrop4]
      exact take_len_append _ _ rfl
    have hdropc : src2.flatten = (cs.map encodeChunk).flatten := by
      rw [hfl2, hdrop4]
      exact drop_len_append _ _ rfl
    rw [htake4] at h4
    rw [htakec] at hrc
    by_cases hguard : tr + c.length ≤ frame.length
    · have hsum : ((c :: cs).map List.length).sum
          = c.length + (cs.map List.length).sum := by simp
      have hrest := ih src2 (writeAt frame tr c) (tr + c.length)
        (fun d hd => hsz d (by simp [hd])) hne2 hdropc
        (by rw [writeAt_length hguard]; omega)
        (by rw [writeAt_length hguard]; rw [hsum] at hlt; omega)
      simp only [List.length_cons, recvChunks, h4,
        u32decode_encode _ hszc, hrc, if_pos hguard, hrest]
    · simp only [List.length_cons, recvChunks, h4,
        u32decode_encode _ hszc, hrc, if_neg hguard]

theorem receiveFrameStream_overflow (totalSize : Nat)
    (chunks : List (List Nat)) (src : List (List Nat))
    (hts : totalSize < 4294967296) (hcc : chunks.length < 4294967296)
    (hsz : ∀ c ∈ chunks, c.length < 4294967296)
    (hsum : totalSize < (chunks.map List.length).sum)
    (hsrc : src.flatten = encodeStream totalSize chunks)
    (hne : ∀ c ∈ src, c ≠ []) :
    receiveFrameBody src = .error () ∧ receiveFrameStream src = none := by
  have hflat : src.flatten
      = (u32encode totalSize ++ u32encode chunks.length) ++
        (chunks.map encodeChunk).flatten := by
    simpa [encodeStream, List.append_assoc] using hsrc
  have hlen8 : (u32encode totalSize ++ u32encode chunks.length).length = 8 := by
    simp [u32encode]
  have hav8 : 8 ≤ src.flatten.length := by
    rw [hflat]
    simp only [List.length_append, hlen8]
    omega
  obtain ⟨src1, h8, hfl1, hne1⟩ := readExactly_flat hne hav8
  have htake8 : src.flatten.take 8
      = u32encode totalSize ++ u32encode chunks.length := by
    rw [hflat]
    exact take_len_append _ _ hlen8
  have hdrop8 : src1.flatten = (chunks.map encodeChunk).flatten := by
    rw [hfl1, hflat]
    exact drop_len_append _ _ hlen8
  rw [htake8] at h8
  have hmeta1 : (u32encode totalSize ++ u32encode chunks.length).take 4
      = u32encode totalSize := take_len_append _ _ (u32encode_length _)
  have hmeta2 : (u32encode totalSize ++ u32encode chunks.length).drop 4
      = u32encode chunks.length := drop_len_append _ _ (u32encode_length _)
  have herr := recvChunks_overflow chunks src1
    (List.replicate totalSize 0) 0 hsz hne1 hdrop8 (by simp)
    (by simp; omega)
  constructor
  · simp only [receiveFrameBody, h8, hmeta1, hmeta2,
      u32decode_encode _ hts, u32decode_encode _ hcc, herr]
  · simp only [receiveFrameStream, receiveFrameBody, h8, hmeta1, hmeta2,
      u32decode_encode _ hts, u32decode_encode _ hcc, herr]

theorem writeAt_getElem {buf data : List Nat} {off : Nat}
    (h : off + data.length ≤ buf.length) (k : Nat) :
    (writeAt buf off data)[k]? =
      if off ≤ k ∧ k < off + data.length then data[k - off]? else buf[k]? := by
  have htl : (buf.take off).length = off := by
    simp only [List.length_take]
    omega
  by_cases h1 : k < off
  · rw [writeAt, List.append_assoc,
      List.getElem?_append_left (by omega : k < (buf.take off).length),
      List.getElem?_take_of_lt h1, if_neg (by omega)]
  · rw [writeAt, List.append_assoc,
      List.getElem?_append_right (by omega : (buf.take off).length ≤ k), htl]
    by_cases h2 : k < off + data.length
    · rw [List.getElem?_append_left (by omega : k - off < data.length),
        if_pos (by omega)]
    · rw [List.getElem?_append_right (by omega : data.length ≤ k - off),
        List.getElem?_drop, if_neg (by omega)]
      congr 1
      omega

theorem writeAt_comm {buf d1 d2 : List Nat} {o1 o2 : Nat}
    (h12 : o1 + d1.length ≤ o2) (h2 : o2 + d2.length ≤ buf.length) :
    writeAt (writeAt buf o1 d1) o2 d2 = writeAt (writeAt buf o2 d2) o1 d1 := by
  have h1 : o1 + d1.length ≤ buf.length := by omega
  have l1 : (writeAt buf o1 d1).length = buf.length := writeAt_length h1
  have l2 : (writeAt buf o2 d2).length = buf.length := writeAt_length h2
  have hA : o2 + d2.length ≤ (writeAt buf o1 d1).length := by
    rw [l1]
    exact h2
  have hB : o1 + d1.length ≤ (writeAt buf o2 d2).length := by
    rw [l2]
    exact h1
  apply List.ext_getElem?
  intro k
  rw [writeAt_getElem hA k, writeAt_getElem hB k,
    writeAt_getElem h1 k, writeAt_getElem h2 k]
  by_cases hc1 : o1 ≤ k ∧ k < o1 + d1.length
  · have hc2 : ¬ (o2 ≤ k ∧ k < o2 + d2.length) := by omega
    rw [if_neg hc2, if_pos hc1, if_pos hc1]
  · by_cases hc2 : o2 ≤ k ∧ k < o2 + d2.length
    · rw [if_pos hc2, if_neg hc1, if_pos hc2]
    · rw [if_neg hc2, if_neg hc1, if_neg hc1, if_neg hc2]

theorem processChunk_received_subset (numChunks totalSize : Nat)
    (s : DgState) (c : Nat × List Nat) :
    s.received ⊆ (processChunk numChunks totalSize s c).received := by
  rw [processChunk]
  split_ifs <;> simp [Finset.subset_insert]

theorem processChunks_received_subset (numChunks totalSize : Nat) :
    ∀ (l : List (Nat × List Nat)) (s : DgState),
    s.received ⊆ (processChunks numChunks totalSize s l).received := by
  intro l
  induction l with
  | nil => intro s; simp [processChunks]
  | cons c l ih =>
    intro s
    exact Finset.Subset.trans
      (processChunk_received_subset numChunks totalSize s c)
      (ih (processChunk numChunks totalSize s c))

theorem processChunk_frame_length {numChunks totalSize : Nat}
    {s : DgState} (c : Nat × List Nat) (h : s.frame.length = totalSize) :
    (processChunk numChunks totalSize s c).frame.length = totalSize := by
  rw [processChunk]
  split_ifs with h1 h2 h3
  · exact h
  · exact h
  · exact h
  · have hb : c.1 * CHUNK_SIZE + c.2.length ≤ totalSize := by
      push_neg at h3
      have := h3.trans (min_le_right _ _)
      omega
    simp only
    rw [writeAt_length (by omega), h]

theorem processChunks_frame_length {numChunks totalSize : Nat} :
    ∀ (l : List (Nat × List Nat)) (s : DgState),
    s.frame.length = totalSize →
    (processChunks numChunks totalSize s l).frame.length = totalSize := by
  intro l
  induction l with
  | nil => intro s h; simpa [processChunks] using h
  | cons c l ih =>
    intro s h
    exact ih _ (processChunk_frame_length c h)

theorem processChunk_big_noop {numChunks : Nat} (totalSize : Nat)
    {c : Nat × List Nat} (hg : numChunks ≤ c.1) (s : DgState) :
    processChunk numChunks totalSize s c = s := by
  simp [processChunk, hg]

theorem processChunk_oversize_noop {numChunks totalSize : Nat}
    {c : Nat × List Nat}
    (ho : (c.2.length : Int) >
      min (CHUNK_SIZE : Int) ((totalSize : Int) - (c.1 * CHUNK_SIZE : Nat)))
    (s : DgState) :
    processChunk numChunks totalSize s c = s := by
  rw [processChunk]
  split_ifs
  all_goals rfl

theorem processChunk_mem_noop {numChunks totalSize : Nat} {s : DgState}
    {c : Nat × List Nat} (hm : c.1 ∈ s.received) :
    processChunk numChunks totalSize s c = s := by
  rw [processChunk]
  split_ifs
  all_goals rfl

theorem processChunk_accept {numChunks totalSize : Nat} {s : DgState}
    {c : Nat × List Nat} (hg : c.1 < numChunks) (hm : c.1 ∉ s.received)
    (ho : ¬ (c.2.length : Int) >
      min (CHUNK_SIZE : Int) ((totalSize : Int) - (c.1 * CHUNK_SIZE : Nat))) :
    processChunk numChunks totalSize s c
      = ⟨writeAt s.frame (c.1 * CHUNK_SIZE) c.2, insert c.1 s.received,
          s.totalReceived + c.2.length⟩ := by
  rw [processChunk, if_neg (by omega), if_neg hm, if_neg ho]

theorem processChunk_noop_after (numChunks totalSize : Nat)
    (s : DgState) (c : Nat × List Nat) (l : List (Nat × List Nat)) :
    processChunk numChunks totalSize
        (processChunks numChunks totalSize
          (processChunk numChunks totalSize s c) l) c
      = processChunks numChunks totalSize
          (processChunk numChunks totalSize s c) l := by
  by_cases g : numChunks ≤ c.1
  · rw [processChunk_big_noop totalSize g]
  · by_cases o : (c.2.length : Int) >
        min (CHUNK_SIZE : Int) ((totalSize : Int) - (c.1 * CHUNK_SIZE : Nat))
    · rw [processChunk_oversize_noop o]
    · have hmem : c.1 ∈ (processChunk numChunks totalSize s c).received := by
        by_cases m : c.1 ∈ s.received
        · exact processChunk_received_subset _ _ _ _ m
        · rw [processChunk_accept (by omega) m o]
          exact Finset.mem_insert_self _ _
      exact processChunk_mem_noop
        (processChunks_received_subset numChunks totalSize l _ hmem)

set_option maxRecDepth 4000 in
theorem processChunk_comm (numChunks totalSize : Nat) (s : DgState)
    (c1 c2 : Nat × List Nat) (hne : c1.1 ≠ c2.1)
    (hlen : s.frame.length = totalSize) :
    processChunk numChunks totalSize
        (processChunk numChunks totalSize s c1) c2
      = processChunk numChunks totalSize
          (processChunk numChunks totalSize s c2) c1 := by
  by_cases g1 : numChunks ≤ c1.1
  · rw [processChunk_big_noop totalSize g1, processChunk_big_noop totalSize g1]
  by_cases g2 : numChunks ≤ c2.1
  · rw [processChunk_big_noop totalSize g2, processChunk_big_noop totalSize g2]
  by_cases o1 : (c1.2.length : Int) >
      min (CHUNK_SIZE : Int) ((totalSize : Int) - (c1.1 * CHUNK_SIZE : Nat))
  · rw [processChunk_oversize_noop o1, processChunk_oversize_noop o1]
  by_cases o2 : (c2.2.length : Int) >
      min (CHUNK_SIZE : Int) ((totalSize : Int) - (c2.1 * CHUNK_SIZE : Nat))
  · rw [processChunk_oversize_noop o2, processChunk_oversize_noop o2]
  by_cases m1 : c1.1 ∈ s.received
  · rw [processChunk_mem_noop m1, processChunk_mem_noop
      (processChunk_received_subset numChunks totalSize s c2 m1)]
  by_cases m2 : c2.1 ∈ s.received
  · rw [processChunk_mem_noop m2, processChunk_mem_noop
      (processChunk_received_subset numChunks totalSize s c1 m2)]
  · have hm2' : c2.1 ∉ insert c1.1 s.received := by
      intro hm
      rcases Finset.mem_insert.mp hm with h | h
      · exact hne h.symm
      · exact m2 h
    have hm1' : c1.1 ∉ insert c2.1 s.received := by
      intro hm
      rcases Finset.mem_insert.mp hm with h | h
      · exact hne h
      · exact m1 h
    rw [processChunk_accept (by omega) m1 o1,
      processChunk_accept (by omega) m2 o2,
      processChunk_accept (by omega) hm2' o2,
      processChunk_accept (by omega) hm1' o1]
    have hb1 : c1.1 * CHUNK_SIZE + c1.2.length ≤ totalSize ∧
        c1.2.length ≤ CHUNK_SIZE := by
      push_neg at o1
      constructor
      · have := o1.trans (min_le_right _ _)
        omega
      · have := o1.trans (min_le_left _ _)
        exact_mod_cast this
    have hb2 : c2.1 * CHUNK_SIZE + c2.2.length ≤ totalSize ∧
        c2.2.length ≤ CHUNK_SIZE := by
      push_neg at o2
      constructor
      · have := o2.trans (min_le_right _ _)
        omega
      · have := o2.trans (min_le_left _ _)
        exact_mod_cast this
    have hdisj : c1.1 * CHUNK_SIZE + c1.2.length ≤ c2.1 * CHUNK_SIZE ∨
        c2.1 * CHUNK_SIZE + c2.2.length ≤ c1.1 * CHUNK_SIZE := by
      rcases Nat.lt_or_ge c1.1 c2.1 with h | h
      · left
        have h12 : (c1.1 + 1) * CHUNK_SIZE ≤ c2.1 * CHUNK_SIZE :=
          Nat.mul_le_mul_right _ h
        rw [Nat.add_mul, Nat.one_mul] at h12
        omega
      · have hlt : c2.1 < c1.1 := lt_of_le_of_ne h (fun h' => hne h'.symm)
        right
        have h21 : (c2.1 + 1) * CHUNK_SIZE ≤ c1.1 * CHUNK_SIZE :=
          Nat.mul_le_mul_right _ hlt
        rw [Nat.add_mul, Nat.one_mul] at h21
        omega
    simp only [DgState.mk.injEq]
    refine ⟨?_, Finset.Insert.comm _ _ _, by omega⟩
    have hw1 : c1.1 * CHUNK_SIZE + c1.2.length ≤ s.frame.length := by
      rw [hlen]
      exact hb1.1
    have hw2 : c2.1 * CHUNK_SIZE + c2.2.length ≤ s.frame.length := by
      rw [hlen]
      exact hb2.1
    rcases hdisj with h | h
    · exact writeAt_comm h hw2
    · exact (writeAt_comm h hw1).symm

theorem processChunks_cons (numChunks totalSize : Nat) (s : DgState)
    (c : Nat × List Nat) (l : List (Nat × List Nat)) :
    processChunks numChunks totalSize s (c :: l)
      = processChunks numChunks totalSize
          (processChunk numChunks totalSize s c) l := rfl

theorem processChunks_append (numChunks totalSize : Nat) (s : DgState)
    (l1 l2 : List (Nat × List Nat)) :
    processChunks numChunks totalSize s (l1 ++ l2)
      = processChunks numChunks totalSize
          (processChunks numChunks totalSize s l1) l2 := by
  simp [processChunks, List.foldl_append]

theorem processChunk_swap_list (numChunks totalSize : Nat) :
    ∀ (l : List (Nat × List Nat)) (s : DgState) (c : Nat × List Nat),
    c.1 ∉ l.map Prod.fst → s.frame.length = totalSize →
    processChunks numChunks totalSize
        (processChunk numChunks totalSize s c) l
      = processChunk numChunks totalSize
          (processChunks numChunks totalSize s l) c := by
  intro l
  induction l with
  | nil => intro s c _ _; rfl
  | cons d l ih =>
    intro s c hnotin hlen
    have hne : c.1 ≠ d.1 := by
      intro h
      exact hnotin (by simp [h])
    rw [processChunks_cons, processChunks_cons,
      processChunk_comm numChunks totalSize s c d hne hlen,
      ih (processChunk numChunks totalSize s d) c
        (fun h => hnotin (by simp [h]))
        (processChunk_frame_length d hlen)]

theorem processChunks_reverse (numChunks totalSize : Nat) :
    ∀ (l : List (Nat × List Nat)) (s : DgState),
    (l.map Prod.fst).Nodup → s.frame.length = totalSize →
    processChunks numChunks totalSize s l.reverse
      = processChunks numChunks totalSize s l := by
  intro l
  induction l with
  | nil => intro s _ _; rfl
  | cons c l ih =>
    intro s hnodup hlen
    have hnotin : c.1 ∉ l.map Prod.fst := by
      simp only [List.map_cons, List.nodup_cons] at hnodup
      exact hnodup.1
    have hnodup' : (l.map Prod.fst).Nodup := by
      simp only [List.map_cons, List.nodup_cons] at hnodup
      exact hnodup.2
    rw [List.reverse_cons, processChunks_append, ih s hnodup' hlen,
      processChunks_cons]
    show processChunk numChunks totalSize
      (processChunks numChunks totalSize s l) c
        = processChunks numChunks totalSize
            (processChunk numChunks totalSize s c) l
    rw [processChunk_swap_list numChunks totalSize l s c hnotin hlen]

theorem processChunk_received_lt {numChunks totalSize : Nat} {s : DgState}
    {c : Nat × List Nat} (h : ∀ j ∈ s.received, j < numChunks) :
    ∀ j ∈ (processChunk numChunks totalSize s c).received, j < numChunks := by
  intro j hj
  rw [processChunk] at hj
  split_ifs at hj with h1 h2 h3
  · exact h j hj
  · exact h j hj
  · exact h j hj
  · rcases Finset.mem_insert.mp hj with h' | h'
    · omega
    · exact h j h'

theorem processChunks_received_lt {numChunks totalSize : Nat} :
    ∀ (l : List (Nat × List Nat)) (s : DgState),
    (∀ j ∈ s.received, j < numChunks) →
    ∀ j ∈ (processChunks numChunks totalSize s l).received, j < numChunks := by
  intro l
  induction l with
  | nil => intro s h; exact h
  | cons c l ih =>
    intro s h
    exact ih _ (processChunk_received_lt h)

theorem processDatagrams_received_lt {numChunks totalSize : Nat} :
    ∀ (pkts : List (List Nat)) (s : DgState),
    (∀ j ∈ s.received, j < numChunks) →
    ∀ j ∈ (processDatagrams numChunks totalSize s pkts).received,
      j < numChunks := by
  intro pkts
  induction pkts with
  | nil => intro s h; exact h
  | cons p pkts ih =>
    intro s h
    exact ih _ (processChunks_received_lt _ _ h)

theorem publishAll_below_window :
    ∀ (w : List ℚ) (k : Nat) (acc : ℚ) (rep : List ℚ),
    k + w.length < 30 →
    publishAll ⟨k, acc, rep⟩ w = ⟨k + w.length, acc + w.sum, rep⟩ := by
  intro w
  induction w with
  | nil =>
    intro k acc rep _
    simp [publishAll]
  | cons d w ih =>
    intro k acc rep h
    rw [List.length_cons] at h
    have hc : (k + 1) % 30 ≠ 0 := by omega
    have hstep : publishFrame ⟨k, acc, rep⟩ d = ⟨k + 1, acc + d, rep⟩ := by
      rw [publishFrame]
      dsimp only
      rw [if_neg hc]
    show publishAll (publishFrame ⟨k, acc, rep⟩ d) w = _
    rw [hstep, ih (k + 1) (acc + d) rep (by omega)]
    have h1 : k + 1 + w.length = k + (d :: w).length := by
      rw [List.length_cons]
      omega
    have h2 : acc + d + w.sum = acc + (d :: w).sum := by
      rw [List.sum_cons]
      ring
    rw [h1, h2]

theorem publishAll_fullwindow :
    ∀ (w : List ℚ) (k : Nat) (acc : ℚ) (rep : List ℚ),
    k < 30 → k + w.length = 30 →
    publishAll ⟨k, acc, rep⟩ w = ⟨0, 0, rep ++ [(acc + w.sum) / 30]⟩ := by
  intro w
  induction w with
  | nil =>
    intro k acc rep hk h
    simp only [List.length_nil] at h
    omega
  | cons d w ih =>
    intro k acc rep hk h
    rw [List.length_cons] at h
    by_cases h30 : k + 1 = 30
    · have hw : w = [] := by
        have : w.length = 0 := by omega
        exact List.length_eq_zero.mp this
      subst hw
      have hc : (k + 1) % 30 = 0 := by omega
      have hv : ((k + 1 : Nat) : ℚ) = 30 := by
        rw [h30]
        norm_num
      have hstep : publishFrame ⟨k, acc, rep⟩ d
          = ⟨0, 0, rep ++ [(acc + d) / 30]⟩ := by
        rw [publishFrame]
        dsimp only
        rw [if_pos hc, hv]
      show publishAll (publishFrame ⟨k, acc, rep⟩ d) [] = _
      rw [hstep]
      simp [publishAll]
    · have hc : (k + 1) % 30 ≠ 0 := by omega
      have hstep : publishFrame ⟨k, acc, rep⟩ d = ⟨k + 1, acc + d, rep⟩ := by
        rw [publishFrame]
        dsimp only
        rw [if_neg hc]
      show publishAll (publishFrame ⟨k, acc, rep⟩ d) w = _
      rw [hstep, ih (k + 1) (acc + d) rep (by omega) (by omega)]
      have h2 : acc + d + w.sum = acc + (d :: w).sum := by
        rw [List.sum_cons]
        ring
      rw [h2]

theorem publishAll_append (s : StatsState) (l1 l2 : List ℚ) :
    publishAll s (l1 ++ l2) = publishAll (publishAll s l1) l2 := by
  simp [publishAll, List.foldl_append]

theorem publishAll_reports :
    ∀ (n : Nat) (ds : List ℚ), ds.length ≤ n → ∀ rep : List ℚ,
    (publishAll ⟨0, 0, rep⟩ ds).reports = rep ++ specWindowAverages ds := by
  intro n
  induction n with
  | zero =>
    intro ds h rep
    have : ds = [] := List.length_eq_zero.mp (by omega)
    subst this
    rw [specWindowAverages, dif_neg (by simp)]
    simp [publishAll]
  | succ n ih =>
    intro ds h rep
    by_cases h30 : 30 ≤ ds.length
    · have hsplit : ds = ds.take 30 ++ ds.drop 30 :=
        (List.take_append_drop 30 ds).symm
      have htlen : (ds.take 30).length = 30 := by
        simp only [List.length_take]
        omega
      conv_lhs => rw [hsplit]
      rw [publishAll_append,
        publishAll_fullwindow (ds.take 30) 0 0 rep (by omega)
          (by rw [htlen]),
        ih (ds.drop 30) (by simp only [List.length_drop]; omega) _]
      conv_rhs => rw [specWindowAverages]
      rw [dif_pos h30]
      simp [List.append_assoc]
    · rw [publishAll_below_window ds 0 0 rep (by omega),
        specWindowAverages, dif_neg h30]
      simp

theorem processChunk_places_bytes {numChunks totalSize : Nat} {s : DgState}
    {i : Nat} {data : List Nat} (hg : i < numChunks) (hm : i ∉ s.received)
    (ho : ¬ (data.length : Int) > min (CHUNK_SIZE : Int)
      ((totalSize : Int) - (i * CHUNK_SIZE : Nat)))
    (hlen : s.frame.length = totalSize) (k : Nat) (hk : k < data.length) :
    (processChunk numChunks totalSize s (i, data)).frame[i * CHUNK_SIZE + k]?
      = data[k]? := by
  have hb : i * CHUNK_SIZE + data.length ≤ s.frame.length := by
    push_neg at ho
    have h1 := ho.trans (min_le_right _ _)
    rw [hlen]
    omega
  rw [processChunk_accept (s := s) (c := (i, data)) hg hm ho]
  dsimp only
  rw [writeAt_getElem hb (i * CHUNK_SIZE + k),
    if_pos ⟨by omega, by omega⟩]
  have hx : i * CHUNK_SIZE + k - i * CHUNK_SIZE = k := by omega
  rw [hx]

/-! ### The claims -/

/-- C1: for every stream input consisting of a metadata header
(`totalSize`, `chunkCount`) followed by `chunkCount` (size, bytes) pairs
whose sizes sum to `totalSize`, the stream frame decoder returns a frame
buffer whose byte length equals `totalSize` and whose contents are the
concatenation of the chunks in arrival order. -/
theorem stream_decoder_reassembles_exact_frames
    (totalSize : Nat) (chunks : List (List Nat)) (src : List (List Nat))
    (hts : totalSize < 4294967296) (hcc : chunks.length < 4294967296)
    (hsz : ∀ c ∈ chunks, c.length < 4294967296)
    (hsum : (chunks.map List.length).sum = totalSize)
    (hsrc : src.flatten = encodeStream totalSize chunks)
    (hne : ∀ c ∈ src, c ≠ []) :
    receiveFrameStream src = some chunks.flatten
      ∧ chunks.flatten.length = totalSize := by
  refine ⟨receiveFrameStream_complete totalSize chunks src hts hcc hsz hsum
    hsrc hne, ?_⟩
  rw [List.length_flatten, hsum]

theorem stream_decoder_reassembles_exact_frames_witness :
    receiveFrameStream [encodeStream 12 [[1,2,3,4],[5,6,7,8],[9,10,11,12]]]
        = some ([[1,2,3,4],[5,6,7,8],[9,10,11,12]] : List (List Nat)).flatten
      ∧ ([[1,2,3,4],[5,6,7,8],[9,10,11,12]] : List (List Nat)).flatten.length
          = 12 :=
  stream_decoder_reassembles_exact_frames 12
    [[1,2,3,4],[5,6,7,8],[9,10,11,12]]
    [encodeStream 12 [[1,2,3,4],[5,6,7,8],[9,10,11,12]]]
    (by decide) (by decide) (by decide) (by decide) (by simp) (by decide)

/-- C3: the claim says a stream input whose declared chunk sizes do not sum
to `totalSize` makes the decoder fail the frame and never return a
(partial or zero-padded) frame value.  The code performs no such check:
at the failing input below (metadata declares `totalSize = 4`,
`chunkCount = 1`, one 2-byte chunk) the decoder returns the zero-padded
4-byte buffer, exactly what the spec forbids, while its datagram twin
does implement the corresponding `totalReceived !== totalSize` check. -/
theorem stream_shortfall_returns_padded_frame :
    receiveFrameStream streamShortfallSrc = some [1, 2, 0, 0] := by decide

/-- C10: the stream decoder never writes outside the `totalSize`-byte
buffer and never propagates an exception: whenever the declared chunk
sizes would push the running write offset past `totalSize`, the
out-of-bounds `set` throws inside the `try` block (`.error` in the
embedded body) and `receiveFrame` returns `null`. -/
theorem stream_decoder_never_throws
    (totalSize : Nat) (chunks : List (List Nat)) (src : List (List Nat))
    (hts : totalSize < 4294967296) (hcc : chunks.length < 4294967296)
    (hsz : ∀ c ∈ chunks, c.length < 4294967296)
    (hsum : totalSize < (chunks.map List.length).sum)
    (hsrc : src.flatten = encodeStream totalSize chunks)
    (hne : ∀ c ∈ src, c ≠ []) :
    receiveFrameBody src = .error () ∧ receiveFrameStream src = none :=
  receiveFrameStream_overflow totalSize chunks src hts hcc hsz hsum hsrc hne

theorem stream_decoder_never_throws_witness :
    receiveFrameBody [encodeStream 1 [[1, 2]]] = .error ()
      ∧ receiveFrameStream [encodeStream 1 [[1, 2]]] = none :=
  stream_decoder_never_throws 1 [[1, 2]] [encodeStream 1 [[1, 2]]]
    (by decide) (by decide) (by decide) (by decide) (by simp) (by decide)

/-- C5 counterexample: the claim says both transports reject metadata with
`chunkCount > 1000`.  The stream decoder has no such check: on a stream
declaring 1001 empty chunks it produces a frame. -/
theorem stream_accepts_chunk_count_beyond_ceiling :
    receiveFrameStream streamManyChunksSrc = some [] := by
  have hfl : (List.replicate 1001 ([] : List Nat)).flatten = [] :=
    List.flatten_eq_nil_iff.mpr (fun l hl => List.eq_of_mem_replicate hl)
  have h := receiveFrameStream_complete 0 (List.replicate 1001 [])
    streamManyChunksSrc (by norm_num)
    (by rw [List.length_replicate]; norm_num)
    (fun c hc => by rw [List.eq_of_mem_replicate hc]; norm_num)
    (by rw [List.map_replicate, List.sum_replicate]; simp)
    (by rw [streamManyChunksSrc]
        simp only [List.flatten_cons, List.flatten_nil, List.append_nil])
    (fun c hc => by rw [List.mem_singleton.mp hc]; decide)
  rw [hfl] at h
  exact h

/-- C5 as amended: only the datagram decoder enforces the sanity ceilings:
metadata declaring `chunkCount > 1000` or `totalSize > 1920*1080*4` is
rejected there, the socket drained, and no frame produced. -/
theorem datagram_rejects_metadata_beyond_ceilings
    (t0 : Nat) (meta : List Nat) (rest : List (Nat × List Nat))
    (h8 : ¬ meta.length < 8)
    (hsan : 1000 < u32decode (meta.drop 4)
      ∨ 1920 * 1080 * 4 < u32decode (meta.take 4)) :
    dgReceiveFrame ((t0, meta) :: rest) = (none, []) := by
  simp only [dgReceiveFrame, if_neg h8, if_pos hsan]

theorem datagram_rejects_metadata_beyond_ceilings_witness :
    dgReceiveFrame [(0, u32encode 0 ++ u32encode 1001)] = (none, []) :=
  datagram_rejects_metadata_beyond_ceilings 0
    (u32encode 0 ++ u32encode 1001) [] (by decide) (by decide)

/-- C4: the claim — and the spec's clear intent (abandon on timeout,
return no-frame, accept fresh metadata on the next call) — fails on the
code in both directions, so this is a code bug.  First, the 1000 ms
timeout is only consulted between datagram receives: at the failing
input below (metadata at 0 ms, the single covering chunk at 5000 ms)
the decoder sits blocked in `receive`, never re-checks the clock, and
returns a frame where the claim demands no-frame; this theorem
evaluates the embedded decoder at that input.  Second, when the timeout
branch does fire, the drain `while (await listener.receive()) {}` never
terminates (its source comment `// Reset socket buffer` shows the
intent), so the real call never returns no-frame and no next call can
accept fresh metadata — the claimed recovery is unreachable. -/
theorem datagram_late_chunks_still_complete_frame :
    dgReceiveFrame dgLateCoverTrace = (some [7], []) := by decide

/-- C2: the datagram reassembly state is insensitive to duplication and
ordering of chunks: processing a chunk a second time anywhere later is a
no-op, a list of chunks with pairwise distinct indices reconstructs the
identical state when delivered in reverse order, and an accepted chunk
with index `i` lands at byte offset `i * CHUNK_SIZE` of the frame
buffer. -/
theorem datagram_chunk_set_determines_buffer (numChunks totalSize : Nat) :
    (∀ (s : DgState) (pre mid post : List (Nat × List Nat))
        (c : Nat × List Nat),
      processChunks numChunks totalSize s (pre ++ c :: mid ++ c :: post)
        = processChunks numChunks totalSize s (pre ++ c :: mid ++ post))
    ∧ (∀ (s : DgState) (l : List (Nat × List Nat)),
        (l.map Prod.fst).Nodup → s.frame.length = totalSize →
        processChunks numChunks totalSize s l.reverse
          = processChunks numChunks totalSize s l)
    ∧ (∀ (s : DgState) (i : Nat) (data : List Nat),
        i < numChunks → i ∉ s.received →
        ¬ (data.length : Int) > min (CHUNK_SIZE : Int)
          ((totalSize : Int) - (i * CHUNK_SIZE : Nat)) →
        s.frame.length = totalSize →
        ∀ k, k < data.length →
        (processChunk numChunks totalSize s
          (i, data)).frame[i * CHUNK_SIZE + k]? = data[k]?) := by
  refine ⟨?_, fun s l hn hl =>
    processChunks_reverse numChunks totalSize l s hn hl, ?_⟩
  · intro s pre mid post c
    simp only [processChunks_append, processChunks_cons]
    rw [processChunk_noop_after]
  · intro s i data hg hm ho hlen k hk
    exact processChunk_places_bytes hg hm ho hlen k hk

theorem datagram_chunk_set_determines_buffer_witness :
    (processChunks 2 2 ⟨[0, 0], ∅, 0⟩ ([] ++ (0, [9]) :: [] ++ (0, [9]) :: [])
        = processChunks 2 2 ⟨[0, 0], ∅, 0⟩ ([] ++ (0, [9]) :: [] ++ []))
      ∧ (processChunks 2 2 ⟨[0, 0], ∅, 0⟩ [(0, [9]), (1, [8])].reverse
          = processChunks 2 2 ⟨[0, 0], ∅, 0⟩ [(0, [9]), (1, [8])])
      ∧ (processChunk 2 2 ⟨[0, 0], ∅, 0⟩
          (0, [9])).frame[0 * CHUNK_SIZE + 0]? = [9][0]? :=
  ⟨(datagram_chunk_set_determines_buffer 2 2).1 _ [] [] [] (0, [9]),
    (datagram_chunk_set_determines_buffer 2 2).2.1 _ [(0, [9]), (1, [8])]
      (by decide) (by decide),
    (datagram_chunk_set_determines_buffer 2 2).2.2 _ 0 [9] (by decide)
      (by decide) (by decide) (by decide) 0 (by decide)⟩

/-- C6 counterexample: the claim says an oversized chunk has its copy
length clamped to `min(chunkBytes.length, totalSize - offset)` and its
index marked received.  The code instead discards it whole: with
`totalSize = 2`, chunk 0 carrying 3 bytes is skipped, nothing is copied
and the index stays unreceived. -/
theorem datagram_oversized_chunk_not_truncated :
    processChunk 1 2 ⟨[0, 0], ∅, 0⟩ (0, [5, 6, 7]) = ⟨[0, 0], ∅, 0⟩ := by
  decide

/-- C6 as amended: an in-range fresh chunk longer than
`min(CHUNK_SIZE, totalSize - i*CHUNK_SIZE)` is discarded entirely (the
state, including the received set, is unchanged); an acceptable chunk is
copied in full at offset `i * CHUNK_SIZE`, its index marked received and
the byte count advanced by its full length. -/
theorem datagram_oversized_chunk_discarded (numChunks totalSize : Nat)
    (s : DgState) (i : Nat) (data : List Nat)
    (hg : i < numChunks) (hm : i ∉ s.received)
    (hlen : s.frame.length = totalSize) :
    ((data.length : Int) > min (CHUNK_SIZE : Int)
        ((totalSize : Int) - (i * CHUNK_SIZE : Nat)) →
      processChunk numChunks totalSize s (i, data) = s)
    ∧ (¬ (data.length : Int) > min (CHUNK_SIZE : Int)
        ((totalSize : Int) - (i * CHUNK_SIZE : Nat)) →
      (processChunk numChunks totalSize s (i, data)).received
          = insert i s.received
        ∧ (processChunk numChunks totalSize s (i, data)).totalReceived
            = s.totalReceived + data.length
        ∧ ∀ k, k < data.length →
          (processChunk numChunks totalSize s
            (i, data)).frame[i * CHUNK_SIZE + k]? = data[k]?) := by
  constructor
  · intro ho
    exact processChunk_oversize_noop (c := (i, data)) ho s
  · intro ho
    refine ⟨?_, ?_, fun k hk => processChunk_places_bytes hg hm ho hlen k hk⟩
    · rw [processChunk_accept (s := s) (c := (i, data)) hg hm ho]
    · rw [processChunk_accept (s := s) (c := (i, data)) hg hm ho]

theorem datagram_oversized_chunk_discarded_witness :
    processChunk 1 2 ⟨[0, 0], ∅, 0⟩ (0, [5, 6, 7]) = ⟨[0, 0], ∅, 0⟩
      ∧ (processChunk 1 2 ⟨[0, 0], ∅, 0⟩ (0, [5])).received
          = insert 0 (∅ : Finset Nat) :=
  ⟨(datagram_oversized_chunk_discarded 1 2 ⟨[0, 0], ∅, 0⟩ 0 [5, 6, 7]
      (by decide) (by decide) (by decide)).1 (by decide),
    ((datagram_oversized_chunk_discarded 1 2 ⟨[0, 0], ∅, 0⟩ 0 [5]
      (by decide) (by decide) (by decide)).2 (by decide)).1⟩

/-- C7: `readExactly(n)` returns either a buffer of exactly `n` bytes or
end-of-stream, never a shorter buffer; it returns end-of-stream exactly
when the connection runs out (a read reports zero bytes) before `n`
bytes are available. -/
theorem readExactly_all_or_nothing (n : Nat) (src : List (List Nat)) :
    (∀ (bs : List Nat) (src1 : List (List Nat)),
        readExactly n src = some (bs, src1) → bs.length = n)
      ∧ (readExactly n src = none ↔ avail src < n) := by
  refine ⟨?_, readExactly_none_iff n src⟩
  intro bs src1 h
  exact readGo_some_length h (by simp)

theorem readExactly_all_or_nothing_witness :
    ([1, 2, 3] : List Nat).length = 3
      ∧ (readExactly 2 [[1], []] = none ↔ avail [[1], []] < 2) :=
  ⟨(readExactly_all_or_nothing 3 [[1, 2], [3, 4]]).1 [1, 2, 3] [[4]]
      (by decide),
    (readExactly_all_or_nothing 2 [[1], []]).2⟩

/-- C8: throughout datagram reassembly only indices in
`[0, expectedChunks)` enter the received set, so after processing any
sequence of datagrams the set size is at most `expectedChunks`. -/
theorem datagram_received_indices_in_range (numChunks totalSize : Nat)
    (pkts : List (List Nat)) (s : DgState)
    (hs : ∀ j ∈ s.received, j < numChunks) :
    (∀ j ∈ (processDatagrams numChunks totalSize s pkts).received,
        j < numChunks)
      ∧ (processDatagrams numChunks totalSize s pkts).received.card
          ≤ numChunks := by
  have hlt := @processDatagrams_received_lt numChunks totalSize pkts s hs
  refine ⟨hlt, ?_⟩
  have hsub : (processDatagrams numChunks totalSize s pkts).received
      ⊆ Finset.range numChunks :=
    fun j hj => Finset.mem_range.mpr (hlt j hj)
  calc (processDatagrams numChunks totalSize s pkts).received.card
      ≤ (Finset.range numChunks).card := Finset.card_le_card hsub
    _ = numChunks := Finset.card_range numChunks

theorem datagram_received_indices_in_range_witness :
    (∀ j ∈ (processDatagrams 1 1 ⟨[0], ∅, 0⟩
        [[0, 0, 0, 0, 7], [9, 0, 0, 0, 5]]).received, j < 1)
      ∧ (processDatagrams 1 1 ⟨[0], ∅, 0⟩
          [[0, 0, 0, 0, 7], [9, 0, 0, 0, 5]]).received.card ≤ 1 :=
  datagram_received_indices_in_range 1 1
    [[0, 0, 0, 0, 7], [9, 0, 0, 0, 5]] ⟨[0], ∅, 0⟩ (by decide)

/-- C9: each published frame adds its receive duration to the running sum
and bumps the running count; on every 30th frame the callback receives
the accumulated average and both accumulators reset, so the emitted
reports are exactly the averages of successive 30-frame windows, not a
global average. -/
theorem stats_reports_windowed_averages (ds : List ℚ) :
    (publishAll statsInit ds).reports = specWindowAverages ds := by
  have h := publishAll_reports ds.length ds le_rfl []
  simpa [statsInit] using h

end ScreenStreamer
